import Mathlib

/-!
Verification development for the PROJET_NLP_DIT hybrid search repository.

The repository's core is the score fusion in
`final_code/search_engine.py` (`HybridSearchEngine.hybrid_search`,
lines 83-143), its semantic channel `final_code/database.py`
(`VectorDatabase.search`), its query expansion
(`HybridSearchEngine.expand_query`, `ArxIV/backend.py
expand_query_with_gemma`, `arxiv-search-engine/src/search_engine.py
SearchEngine.expand_query`), and the parallel fusion in
`arxiv-search-engine/src/search_engine.py` (`SearchEngine.hybrid_search`,
lines 143-199).

Modelling conventions:
- Python floats are modelled as rationals (`ℚ`); all score arithmetic in
  the source is exact in this model.
- Python strings are Lean `String`s, except where character-level
  operations matter (query expansion), where they are `List Char`
  (Python `len` is the character count, matching `List.length`).
- A Python dict with insertion order (`combined_results`) is an ordered
  association list; assignment to an existing key replaces the value in
  place, assignment to a fresh key appends.
- `list.sort(key=..., reverse=True)` / `sorted(..., reverse=True)` are
  stable descending sorts; they are modelled by `List.insertionSort`
  with the relation "left element has a key at least as large", which is
  a stable descending sort computing the same function (the output of a
  stable sort for a total preorder is unique).
- Network calls (ollama, HTTP) are modelled by explicit outcome values:
  an exception raised by a provider call and caught by the surrounding
  `try`/`except` is an `error`/`none` outcome.
-/

namespace FinalCode

/-- One element of the list returned by `VectorDatabase.search` in
`final_code/database.py` (lines 82-94): a dict with keys `id`,
`document`, `score` (= 1 - distance) and `metadata`; metadata is an
association list of string keys and values. -/
structure VecResult where
  id : String
  document : String
  score : ℚ
  metadata : List (String × String)
  deriving Repr, DecidableEq

/-- One element of the list returned by `HybridSearchEngine.bm25_search`
in `final_code/search_engine.py` (lines 57-66): a corpus index, the raw
BM25 score, and the document text. -/
structure BmResult where
  index : Nat
  bm25_score : ℚ
  document : String
  deriving Repr, DecidableEq

/-- An entry of the `combined_results` dict built in `hybrid_search`
(lines 83-126), together with its key (`id`) and the fields of the
underlying result dict. -/
structure Entry where
  id : String
  semantic_score : ℚ
  bm25_score : ℚ
  document : String
  score : ℚ
  metadata : List (String × String)
  deriving Repr, DecidableEq

/-- One element of the `final_results` list (lines 129-138). -/
structure FusedResult where
  id : String
  document : String
  score : ℚ
  metadata : List (String × String)
  hybrid_score : ℚ
  semantic_score : ℚ
  bm25_score : ℚ
  deriving Repr, DecidableEq

/-- Python `max` over a nonempty list of rationals (the `[]` case is
never reached by the source, which guards with `if results:`). -/
def qMax : List ℚ → ℚ
  | [] => 0
  | x :: xs => xs.foldl max x

/-- Python `min` over a nonempty list of rationals. -/
def qMin : List ℚ → ℚ
  | [] => 0
  | x :: xs => xs.foldl min x

/-- The min-max range divisor: `max - min if max != min else 1`
(lines 89 and 104). -/
def mmRange (scores : List ℚ) : ℚ :=
  if qMax scores ≠ qMin scores then qMax scores - qMin scores else 1

/-- Min-max normalisation of one raw score against a channel's raw
score list: `(raw - min) / range` (lines 93 and 111). -/
def mmNorm (scores : List ℚ) (s : ℚ) : ℚ :=
  (s - qMin scores) / mmRange scores

/-- Python dict assignment `combined_results[doc_id] = v`: if the key is
present the value is replaced in place, otherwise the pair is appended. -/
def dictSet (acc : List Entry) (e : Entry) : List Entry :=
  if acc.any (fun x => x.id == e.id) then
    acc.map (fun x => if x.id = e.id then e else x)
  else acc ++ [e]

/-- The entry written for one vector result (lines 91-98). -/
def semEntry (vs : List VecResult) (r : VecResult) : Entry :=
  { id := r.id
    semantic_score := mmNorm (vs.map (·.score)) r.score
    bm25_score := 0
    document := r.document
    score := r.score
    metadata := r.metadata }

/-- The semantic-normalisation loop of `hybrid_search` (lines 86-98):
each vector result is written into `combined_results` with its min-max
normalised score and a BM25 component of 0. (When `vector_results` is
empty the loop body never runs, so the surrounding `if` needs no
separate model.) -/
def semPhase (vs : List VecResult) : List Entry :=
  vs.foldl (fun acc r => dictSet acc (semEntry vs r)) []

/-- `all_docs['metadatas'][idx] if idx < len(all_docs['metadatas'])
else` an empty dict (line 124). -/
def bmEntryMeta (ms : List (List (String × String))) (idx : Nat) :
    List (String × String) :=
  if h : idx < ms.length then ms.get ⟨idx, h⟩ else []

/-- The document id a BM25 result resolves to: `all_docs['ids'][idx]`
when `idx < len(all_docs['ids'])`, nothing otherwise (line 109-110). -/
def mappedId (ids : List String) (b : BmResult) : Option String :=
  if h : b.index < ids.length then some (ids.get ⟨b.index, h⟩) else none

/-- The document ids the BM25 results resolve to, in order. -/
def mappedIds (ids : List String) (bs : List BmResult) : List String :=
  bs.filterMap (mappedId ids)

/-- One iteration of the BM25 loop of `hybrid_search` (lines 107-126):
results whose index is out of range of `all_docs['ids']` are skipped;
a doc id already present gets its `bm25_score` field updated in place;
a fresh doc id is appended as a BM25-only entry with semantic score 0,
vector score 0 and the metadata row at the same index. -/
def bmStep (ids : List String) (ms : List (List (String × String)))
    (scores : List ℚ) (acc : List Entry) (b : BmResult) : List Entry :=
  if h : b.index < ids.length then
    let doc_id := ids.get ⟨b.index, h⟩
    let normalized := mmNorm scores b.bm25_score
    if acc.any (fun x => x.id == doc_id) then
      acc.map (fun x => if x.id = doc_id then { x with bm25_score := normalized } else x)
    else
      acc ++ [{ id := doc_id
                semantic_score := 0
                bm25_score := normalized
                document := b.document
                score := 0
                metadata := bmEntryMeta ms b.index }]
  else acc

/-- The BM25-normalisation loop of `hybrid_search` (lines 101-126),
folded over the semantic entries. -/
def bmPhase (ids : List String) (ms : List (List (String × String)))
    (bs : List BmResult) (acc : List Entry) : List Entry :=
  bs.foldl (bmStep ids ms (bs.map (·.bm25_score))) acc

/-- The full `combined_results` dict of `hybrid_search` (lines 83-126),
as an ordered association list. -/
def combinedResults (vs : List VecResult) (bs : List BmResult)
    (ids : List String) (ms : List (List (String × String))) : List Entry :=
  bmPhase ids ms bs (semPhase vs)

/-- The final-result dict built for one entry (lines 130-138):
`hybrid_score = semantic_weight * semantic + (1 - semantic_weight) * bm25`. -/
def finalScore (semantic_weight : ℚ) (e : Entry) : FusedResult :=
  { id := e.id
    document := e.document
    score := e.score
    metadata := e.metadata
    hybrid_score := semantic_weight * e.semantic_score +
      (1 - semantic_weight) * e.bm25_score
    semantic_score := e.semantic_score
    bm25_score := e.bm25_score }

/-- Comparison used by `final_results.sort(key=lambda x:
x['hybrid_score'], reverse=True)` (line 141): the left result may come
first when its hybrid score is at least the right one's. -/
def hybridLE (a b : FusedResult) : Prop := b.hybrid_score ≤ a.hybrid_score

instance : DecidableRel hybridLE :=
  fun a b => inferInstanceAs (Decidable (b.hybrid_score ≤ a.hybrid_score))

instance : IsTotal FusedResult hybridLE := ⟨fun a b => le_total b.hybrid_score a.hybrid_score⟩

instance : IsTrans FusedResult hybridLE := ⟨fun _ _ _ h1 h2 => le_trans h2 h1⟩

/-- The sorted `final_results` list of `hybrid_search` (lines 129-141),
before the final truncation to `top_k`. Python's stable descending sort
is modelled by the stable insertion sort. -/
def hybridRanked (vs : List VecResult) (bs : List BmResult)
    (ids : List String) (ms : List (List (String × String)))
    (semantic_weight : ℚ) : List FusedResult :=
  List.insertionSort hybridLE ((combinedResults vs bs ids ms).map (finalScore semantic_weight))

/-- The score-fusion portion of `HybridSearchEngine.hybrid_search`
(lines 83-143), parameterised by the two channel result lists and the
corpus tables `all_docs['ids']` / `all_docs['metadatas']` it reads:
returns `final_results[:top_k]`. -/
def hybrid_search (vs : List VecResult) (bs : List BmResult)
    (ids : List String) (ms : List (List (String × String)))
    (semantic_weight : ℚ) (top_k : Nat) : List FusedResult :=
  (hybridRanked vs bs ids ms semantic_weight).take top_k

/-- The entry appended for a BM25 result whose doc id is not yet in
`combined_results` (lines 116-126), written with a total index lookup
(`getD`); it agrees with `bmStep`'s append branch whenever the index is
in range. -/
def bmFresh (ids : List String) (ms : List (List (String × String)))
    (scores : List ℚ) (b : BmResult) : Entry :=
  { id := ids.getD b.index ""
    semantic_score := 0
    bm25_score := mmNorm scores b.bm25_score
    document := b.document
    score := 0
    metadata := bmEntryMeta ms b.index }

/-- Document id `d1` occupies a strictly earlier position than `d2` in a
result list. -/
def Precedes (l : List FusedResult) (d1 d2 : String) : Prop :=
  ∃ i j : Fin l.length, i < j ∧ (l.get i).id = d1 ∧ (l.get j).id = d2

/-- `VectorDatabase.generate_embedding` (final_code/database.py lines
20-29): the embedding provider's vector on success; the empty list when
the ollama call raises (the exception is caught and `[]` returned). -/
def generate_embedding (provider : Option (List ℚ)) : List ℚ :=
  match provider with
  | some e => e
  | none => []

/-- `VectorDatabase.search` (final_code/database.py lines 65-94): when
the embedding is empty (`if not embedding`) the function returns `[]`
without querying; otherwise it returns the formatted rows of the chroma
query, modelled as the external store function applied to the
embedding. -/
def db_search (provider : Option (List ℚ)) (store : List ℚ → List VecResult) :
    List VecResult :=
  let embedding := generate_embedding provider
  if embedding = [] then [] else store embedding

/-- Boolean check that `needle` starts `hay`. -/
def startsWith (needle hay : List Char) : Bool :=
  match needle, hay with
  | [], _ => true
  | _ :: _, [] => false
  | a :: as, b :: bs => a == b && startsWith as bs

/-- Boolean check that `needle` occurs contiguously inside `hay`. -/
def containsSeq (needle hay : List Char) : Bool :=
  match hay with
  | [] => needle.isEmpty
  | _ :: t => startsWith needle hay || containsSeq needle t

/-- The filter semantics of `VectorDatabase.search` (final_code/
database.py lines 70-79): the where clause keeps, for each filter pair
whose value is neither empty nor "Tous", the condition that the metadata
value under that key contains the filter value (chroma's `$contains`);
a candidate row must satisfy every retained condition. -/
def whereKeep (filters : List (String × String)) (meta : List (String × String)) :
    Bool :=
  filters.all fun kv =>
    if kv.2 ≠ "" ∧ kv.2 ≠ "Tous" then
      match meta.lookup kv.1 with
      | some v => containsSeq kv.2.toList v.toList
      | none => false
    else true

/-- Outcome of the ollama generate call in
`HybridSearchEngine.expand_query` (final_code/search_engine.py lines
34-38): `error` models a raised exception (caught at lines 43-45); `ok
none` models a response whose `response` key is missing, which raises
inside the same `try` and is caught by the same `except`; `ok (some r)`
carries the generated text as a list of characters. -/
inductive GenOutcome where
  | error
  | ok (response : Option (List Char))

/-- Python `str.strip()`: drop leading and trailing whitespace. -/
def stripChars (s : List Char) : List Char :=
  ((s.dropWhile Char.isWhitespace).reverse.dropWhile Char.isWhitespace).reverse

/-- Python `str.replace('\n', ' ')`: replace every newline character by
a space. -/
def replaceNewlines (s : List Char) : List Char :=
  s.map fun c => if c = '\n' then ' ' else c

/-- `HybridSearchEngine.expand_query` (final_code/search_engine.py lines
26-45): on any provider exception the original query is returned; on
success the response text is stripped and its newlines replaced, and the
result is returned when non-empty, the original query otherwise. -/
def expand_query (outcome : GenOutcome) (query : List Char) : List Char :=
  match outcome with
  | .error => query
  | .ok none => query
  | .ok (some r) =>
      let expanded := replaceNewlines (stripChars r)
      if expanded ≠ [] then expanded else query

end FinalCode

namespace ArxIV

/-- Outcome of the HTTP generate call in `expand_query_with_gemma`
(ArxIV/backend.py lines 113-123): `error` models a raised exception
(caught at lines 133-135); `ok status body` carries the HTTP status and
the parsed `response` field of the JSON body, `none` modelling a body
whose JSON access raises inside the same `try`. -/
inductive HttpOutcome where
  | error
  | ok (status : Nat) (body : Option (List Char))

/-- `expand_query_with_gemma` (ArxIV/backend.py lines 105-136),
parameterised by the markdown/quote cleanup of lines 126-128 (two regex
substitutions and first-line extraction), which is abstracted as a text
transformation because the acceptance decision at line 130 depends only
on the cleaned text: the cleaned expansion is returned exactly when it
is strictly longer than the query and strictly shorter than 100
characters; every other path returns the original query. -/
def expand_query_with_gemma (cleanup : List Char → List Char)
    (outcome : HttpOutcome) (query : List Char) : List Char :=
  match outcome with
  | .error => query
  | .ok status body =>
      if status = 200 then
        match body with
        | none => query
        | some r =>
            let expanded := cleanup r
            if query.length < expanded.length ∧ expanded.length < 100 then expanded
            else query
      else query

end ArxIV

namespace ArxivSE

/-- `SearchEngine.get_embedding` (arxiv-search-engine/src/
search_engine.py lines 43-56): the provider's embedding on success; on
any exception a 768-dimensional zero vector is returned. -/
def get_embedding (provider : Option (List ℚ)) : List ℚ :=
  match provider with
  | some e => e
  | none => List.replicate 768 0

/-- One raw row of the chroma `collection.query` response used by
`semantic_search` (lines 93-106). -/
structure QueryRow where
  id : String
  document : String
  metadata : List (String × String)
  distance : ℚ
  deriving Repr, DecidableEq

/-- One formatted result of `semantic_search` (lines 98-106):
`semantic_score = 1 - distance`, with no clamping. -/
structure SemResult where
  id : String
  document : String
  metadata : List (String × String)
  distance : ℚ
  semantic_score : ℚ
  deriving Repr, DecidableEq

/-- `SearchEngine.semantic_search` (lines 89-112): embeds the query
(via `get_embedding`) and formats each row of the store's response with
`semantic_score = 1 - distance`. The store is the external chroma
collection, modelled as a function from the query embedding to the raw
rows. -/
def semantic_search (store : List ℚ → List QueryRow)
    (provider : Option (List ℚ)) : List SemResult :=
  (store (get_embedding provider)).map fun r =>
    { id := r.id
      document := r.document
      metadata := r.metadata
      distance := r.distance
      semantic_score := 1 - r.distance }

/-- One result of `lexical_search` (lines 126-135). -/
structure LexResult where
  id : String
  document : String
  metadata : List (String × String)
  lexical_score : ℚ
  deriving Repr, DecidableEq

/-- One value of the `combined_results` dict of `hybrid_search`
(lines 157-191), with its key and the hybrid score filled in by the
scoring loop. -/
structure Combined where
  id : String
  document : String
  metadata : List (String × String)
  semantic_score : ℚ
  lexical_score : ℚ
  hybrid_score : ℚ
  deriving Repr, DecidableEq

/-- Dict assignment for the arxiv-search-engine fusion dict. -/
def dictSet (acc : List Combined) (e : Combined) : List Combined :=
  if acc.any (fun x => x.id == e.id) then
    acc.map (fun x => if x.id = e.id then e else x)
  else acc ++ [e]

/-- The semantic loop of `hybrid_search` (lines 160-166): every semantic
result enters the dict with its `semantic_score` (= 1 - distance) and a
lexical score of 0. -/
def addSemantic (acc : List Combined) (rs : List SemResult) : List Combined :=
  rs.foldl (fun acc r => dictSet acc
    { id := r.id
      document := r.document
      metadata := r.metadata
      semantic_score := r.semantic_score
      lexical_score := 0
      hybrid_score := 0 }) acc

/-- The lexical loop of `hybrid_search` (lines 169-178): a known doc id
gets its `lexical_score` set, a fresh one enters with semantic score
0. -/
def addLexical (acc : List Combined) (rs : List LexResult) : List Combined :=
  rs.foldl (fun acc r =>
    if acc.any (fun x => x.id == r.id) then
      acc.map (fun x => if x.id = r.id then { x with lexical_score := r.lexical_score } else x)
    else acc ++ [{ id := r.id
                   document := r.document
                   metadata := r.metadata
                   semantic_score := 0
                   lexical_score := r.lexical_score
                   hybrid_score := 0 }]) acc

/-- The scoring loop of `hybrid_search` (lines 184-190): the semantic
component is used as is; the lexical component is `min(lex/10, 1)` when
positive and 0 otherwise; `hybrid_score` is the weighted sum with the
configured channel weights. -/
def scoreCombined (semantic_weight lexical_weight : ℚ) (e : Combined) : Combined :=
  { e with hybrid_score :=
      semantic_weight * e.semantic_score +
      lexical_weight * (if 0 < e.lexical_score then min (e.lexical_score / 10) 1 else 0) }

/-- Comparison for `sorted(..., key=lambda x: x['hybrid_score'],
reverse=True)` (lines 193-197). -/
def combinedLE (a b : Combined) : Prop := b.hybrid_score ≤ a.hybrid_score

instance : DecidableRel combinedLE :=
  fun a b => inferInstanceAs (Decidable (b.hybrid_score ≤ a.hybrid_score))

instance : IsTotal Combined combinedLE := ⟨fun a b => le_total b.hybrid_score a.hybrid_score⟩

instance : IsTrans Combined combinedLE := ⟨fun _ _ _ h1 h2 => le_trans h2 h1⟩

/-- The fusion of `SearchEngine.hybrid_search` (arxiv-search-engine/src/
search_engine.py lines 157-199), parameterised by the two channel result
lists: build the union dict, score it, sort it descending by hybrid
score (stable), and truncate to `n_results`. -/
def hybrid_search (semantic_results : List SemResult)
    (lexical_results : List LexResult)
    (semantic_weight lexical_weight : ℚ) (n_results : Nat) : List Combined :=
  (List.insertionSort combinedLE
    ((addLexical (addSemantic [] semantic_results) lexical_results).map
      (scoreCombined semantic_weight lexical_weight))).take n_results

/-- `SearchEngine.expand_query` (arxiv-search-engine/src/
search_engine.py lines 58-87): on any exception the original query is
returned; the success branch extracts and unions word terms from the
response and the query, abstracted here as a combining function because
only the failure behaviour is under verification. -/
def expand_query (combine : List Char → List Char → List Char)
    (outcome : Option (List Char)) (query : List Char) : List Char :=
  match outcome with
  | none => query
  | some r => combine r query

end ArxivSE

namespace FinalCode

theorem le_foldl_max (xs : List ℚ) (a : ℚ) : a ≤ xs.foldl max a := by
  induction xs generalizing a with
  | nil => exact le_refl a
  | cons y ys ih => exact le_trans (le_max_left a y) (ih (max a y))

theorem mem_le_foldl_max (xs : List ℚ) (a : ℚ) : ∀ x ∈ xs, x ≤ xs.foldl max a := by
  induction xs generalizing a with
  | nil => intro x hx; cases hx
  | cons y ys ih =>
    intro x hx
    rcases List.mem_cons.mp hx with h | h
    · subst h; exact le_trans (le_max_right a x) (le_foldl_max ys (max a x))
    · exact ih (max a y) x h

theorem foldl_min_le (xs : List ℚ) (a : ℚ) : xs.foldl min a ≤ a := by
  induction xs generalizing a with
  | nil => exact le_refl a
  | cons y ys ih => exact le_trans (ih (min a y)) (min_le_left a y)

theorem foldl_min_le_mem (xs : List ℚ) (a : ℚ) : ∀ x ∈ xs, xs.foldl min a ≤ x := by
  induction xs generalizing a with
  | nil => intro x hx; cases hx
  | cons y ys ih =>
    intro x hx
    rcases List.mem_cons.mp hx with h | h
    · subst h; exact le_trans (foldl_min_le ys (min a x)) (min_le_right a x)
    · exact ih (min a y) x h

theorem le_qMax (xs : List ℚ) (x : ℚ) (hx : x ∈ xs) : x ≤ qMax xs := by
  cases xs with
  | nil => cases hx
  | cons y ys =>
    rcases List.mem_cons.mp hx with h | h
    · subst h; exact le_foldl_max ys x
    · exact mem_le_foldl_max ys y x h

theorem qMin_le (xs : List ℚ) (x : ℚ) (hx : x ∈ xs) : qMin xs ≤ x := by
  cases xs with
  | nil => cases hx
  | cons y ys =>
    rcases List.mem_cons.mp hx with h | h
    · subst h; exact foldl_min_le ys x
    · exact foldl_min_le_mem ys y x h

theorem mmRange_pos (xs : List ℚ) (x : ℚ) (hx : x ∈ xs) : 0 < mmRange xs := by
  unfold mmRange
  by_cases h : qMax xs ≠ qMin xs
  · rw [if_pos h]
    have h1 := qMin_le xs x hx
    have h2 := le_qMax xs x hx
    rcases lt_or_eq_of_le (le_trans h1 h2) with hlt | heq
    · linarith
    · exact absurd heq.symm h
  · rw [if_neg h]
    norm_num

theorem mmNorm_nonneg (xs : List ℚ) (s : ℚ) (hs : s ∈ xs) :
    0 ≤ mmNorm xs s := by
  unfold mmNorm
  exact div_nonneg (by linarith [qMin_le xs s hs]) (le_of_lt (mmRange_pos xs s hs))

theorem mmNorm_le_one (xs : List ℚ) (s : ℚ) (hs : s ∈ xs) :
    mmNorm xs s ≤ 1 := by
  unfold mmNorm
  rw [div_le_one (mmRange_pos xs s hs)]
  unfold mmRange
  by_cases h : qMax xs ≠ qMin xs
  · rw [if_pos h]
    linarith [le_qMax xs s hs]
  · rw [if_neg h]
    push_neg at h
    have h1 := qMin_le xs s hs
    have h2 := le_qMax xs s hs
    rw [h] at h2
    linarith

theorem mmNorm_strict_mono (xs : List ℚ) (s1 s2 : ℚ) (h1 : s1 ∈ xs) (h2 : s2 ∈ xs)
    (hlt : s2 < s1) : mmNorm xs s2 < mmNorm xs s1 := by
  unfold mmNorm
  have hpos := mmRange_pos xs s1 h1
  rw [div_lt_div_iff_of_pos_right hpos]
  linarith

theorem mmNorm_mono (xs : List ℚ) (s1 s2 : ℚ) (h1 : s1 ∈ xs) (h2 : s2 ∈ xs)
    (hle : s2 ≤ s1) : mmNorm xs s2 ≤ mmNorm xs s1 := by
  unfold mmNorm
  have hpos := mmRange_pos xs s1 h1
  rw [div_le_div_iff_of_pos_right hpos]
  linarith

theorem foldl_min_const (ys : List ℚ) (c : ℚ) (hall : ∀ x ∈ ys, x = c) :
    ys.foldl min c = c := by
  induction ys with
  | nil => rfl
  | cons z zs ih =>
    have hz : z = c := hall z (List.mem_cons_self z zs)
    show zs.foldl min (min c z) = c
    rw [hz, min_self]
    exact ih (fun x hx => hall x (List.mem_cons_of_mem _ hx))

theorem qMin_const (xs : List ℚ) (c : ℚ) (hall : ∀ x ∈ xs, x = c) (s : ℚ)
    (hs : s ∈ xs) : qMin xs = c := by
  cases xs with
  | nil => cases hs
  | cons y ys =>
    have hy : y = c := hall y (List.mem_cons_self y ys)
    show ys.foldl min y = c
    rw [hy]
    exact foldl_min_const ys c (fun x hx => hall x (List.mem_cons_of_mem _ hx))

theorem mmNorm_const (xs : List ℚ) (c : ℚ) (hall : ∀ x ∈ xs, x = c) (s : ℚ)
    (hs : s ∈ xs) : mmNorm xs s = 0 := by
  unfold mmNorm
  rw [hall s hs, qMin_const xs c hall s hs]
  simp

theorem mem_dictSet (acc : List Entry) (x e : Entry) (he : e ∈ dictSet acc x) :
    e ∈ acc ∨ e = x := by
  unfold dictSet at he
  by_cases h : acc.any (fun y => y.id == x.id)
  · rw [if_pos h] at he
    rcases List.mem_map.mp he with ⟨y, hy, hyx⟩
    by_cases hid : y.id = x.id
    · right; rw [if_pos hid] at hyx; exact hyx.symm
    · left; rw [if_neg hid] at hyx; exact hyx ▸ hy
  · rw [if_neg h] at he
    rcases List.mem_append.mp he with h1 | h1
    · left; exact h1
    · right; simpa using h1

theorem mem_bmStep (ids : List String) (ms : List (List (String × String)))
    (scores : List ℚ) (acc : List Entry) (b : BmResult) (e : Entry)
    (he : e ∈ bmStep ids ms scores acc b) :
    e ∈ acc ∨ (∃ e₀ ∈ acc, e = { e₀ with bm25_score := mmNorm scores b.bm25_score })
      ∨ (∃ h : b.index < ids.length,
          e = { id := ids.get ⟨b.index, h⟩
                semantic_score := 0
                bm25_score := mmNorm scores b.bm25_score
                document := b.document
                score := 0
                metadata := bmEntryMeta ms b.index }) := by
  unfold bmStep at he
  by_cases h : b.index < ids.length
  · rw [dif_pos h] at he
    simp only at he
    by_cases hany : acc.any (fun x => x.id == ids.get ⟨b.index, h⟩)
    · rw [if_pos hany] at he
      rcases List.mem_map.mp he with ⟨y, hy, hyx⟩
      by_cases hid : y.id = ids.get ⟨b.index, h⟩
      · right; left
        rw [if_pos hid] at hyx
        exact ⟨y, hy, hyx.symm⟩
      · left; rw [if_neg hid] at hyx; exact hyx ▸ hy
    · rw [if_neg hany] at he
      rcases List.mem_append.mp he with h1 | h1
      · left; exact h1
      · right; right; exact ⟨h, by simpa using h1⟩
  · rw [dif_neg h] at he
    left; exact he

theorem foldl_pres_mem {α β : Type} (f : α → β → α) (Q : α → Prop) :
    ∀ (l : List β), (∀ x ∈ l, ∀ a, Q a → Q (f a x)) → ∀ a, Q a → Q (l.foldl f a) := by
  intro l
  induction l with
  | nil => intro _ a h; exact h
  | cons y ys ih =>
    intro hl a h
    exact ih (fun x hx => hl x (List.mem_cons_of_mem _ hx)) (f a y)
      (hl y (List.mem_cons_self y ys) a h)

theorem foldl_estab_mem {α β : Type} (f : α → β → α) (Q R : α → Prop) (b : β) :
    ∀ (l : List β), b ∈ l →
    (∀ x ∈ l, ∀ a, R a → R (f a x)) →
    (∀ x ∈ l, ∀ a, Q a → Q (f a x)) →
    (∀ a, R a → Q (f a b)) →
    ∀ a, R a → Q (l.foldl f a) := by
  intro l
  induction l with
  | nil => intro hb; cases hb
  | cons y ys ih =>
    intro hb hR hQ hstep a hRa
    rcases List.mem_cons.mp hb with h | h
    · subst h
      exact foldl_pres_mem f Q ys (fun x hx => hQ x (List.mem_cons_of_mem _ hx))
        (f a b) (hstep a hRa)
    · exact ih h (fun x hx => hR x (List.mem_cons_of_mem _ hx))
        (fun x hx => hQ x (List.mem_cons_of_mem _ hx)) hstep (f a y)
        (hR y (List.mem_cons_self y ys) a hRa)

theorem semPhase_inv (P : Entry → Prop) (vs : List VecResult)
    (hP : ∀ r ∈ vs, P (semEntry vs r)) : ∀ e ∈ semPhase vs, P e := by
  unfold semPhase
  have h : ∀ (l : List VecResult), (∀ r ∈ l, r ∈ vs) → ∀ acc, (∀ e ∈ acc, P e) →
      ∀ e ∈ l.foldl (fun acc r => dictSet acc (semEntry vs r)) acc, P e := by
    intro l
    induction l with
    | nil => intro _ acc hacc e he; exact hacc e he
    | cons r rs ih =>
      intro hsub acc hacc e he
      apply ih (fun x hx => hsub x (List.mem_cons_of_mem _ hx)) _ ?_ e he
      intro e' he'
      rcases mem_dictSet _ _ _ he' with h | h
      · exact hacc e' h
      · exact h ▸ hP r (hsub r (List.mem_cons_self r rs))
  exact h vs (fun r hr => hr) [] (by intro e he; cases he)

theorem semPhase_shape (vs : List VecResult) : ∀ e ∈ semPhase vs,
    e.bm25_score = 0 ∧ e.id ∈ vs.map (fun r => r.id) ∧
    0 ≤ e.semantic_score ∧ e.semantic_score ≤ 1 := by
  apply semPhase_inv
  intro r hr
  exact ⟨rfl, List.mem_map_of_mem _ hr,
    mmNorm_nonneg _ _ (List.mem_map_of_mem _ hr),
    mmNorm_le_one _ _ (List.mem_map_of_mem _ hr)⟩

theorem bmPhase_inv (P : Entry → Prop) (ids : List String)
    (ms : List (List (String × String))) (bs : List BmResult)
    (hupd : ∀ b ∈ bs, ∀ e, P e →
      P { e with bm25_score := mmNorm (bs.map (fun x => x.bm25_score)) b.bm25_score })
    (hnew : ∀ b ∈ bs, ∀ h : b.index < ids.length,
      P { id := ids.get ⟨b.index, h⟩
          semantic_score := 0
          bm25_score := mmNorm (bs.map (fun x => x.bm25_score)) b.bm25_score
          document := b.document
          score := 0
          metadata := bmEntryMeta ms b.index })
    (acc : List Entry) (hacc : ∀ e ∈ acc, P e) : ∀ e ∈ bmPhase ids ms bs acc, P e := by
  unfold bmPhase
  have h : ∀ (l : List BmResult), (∀ x ∈ l, x ∈ bs) → ∀ acc, (∀ e ∈ acc, P e) →
      ∀ e ∈ l.foldl (bmStep ids ms (bs.map (fun x => x.bm25_score))) acc, P e := by
    intro l
    induction l with
    | nil => intro _ acc hacc e he; exact hacc e he
    | cons b rs ih =>
      intro hsub acc hacc e he
      apply ih (fun x hx => hsub x (List.mem_cons_of_mem _ hx)) _ ?_ e he
      intro e' he'
      rcases mem_bmStep _ _ _ _ _ _ he' with h | ⟨e₀, he₀, heq⟩ | ⟨hlt, heq⟩
      · exact hacc e' h
      · exact heq ▸ hupd b (hsub b (List.mem_cons_self b rs)) e₀ (hacc e₀ he₀)
      · exact heq ▸ hnew b (hsub b (List.mem_cons_self b rs)) hlt
  exact h bs (fun x hx => hx) acc hacc

theorem combined_bounds (vs : List VecResult) (bs : List BmResult)
    (ids : List String) (ms : List (List (String × String))) :
    ∀ e ∈ combinedResults vs bs ids ms,
      (0 ≤ e.semantic_score ∧ e.semantic_score ≤ 1) ∧
      (0 ≤ e.bm25_score ∧ e.bm25_score ≤ 1) := by
  unfold combinedResults
  apply bmPhase_inv
  · intro b hb e hP
    exact ⟨hP.1, mmNorm_nonneg _ _ (List.mem_map_of_mem _ hb),
      mmNorm_le_one _ _ (List.mem_map_of_mem _ hb)⟩
  · intro b hb h
    exact ⟨⟨le_refl 0, by norm_num⟩,
      mmNorm_nonneg _ _ (List.mem_map_of_mem _ hb),
      mmNorm_le_one _ _ (List.mem_map_of_mem _ hb)⟩
  · intro e he
    have h := semPhase_shape vs e he
    exact ⟨⟨h.2.2.1, h.2.2.2⟩, by rw [h.1]; norm_num⟩

theorem bmStep_pres_bmfree (Q : Entry → Prop)
    (hQ : ∀ e n, Q e → Q { e with bm25_score := n })
    (ids : List String) (ms : List (List (String × String))) (scores : List ℚ)
    (acc : List Entry) (b : BmResult) (hex : ∃ e ∈ acc, Q e) :
    ∃ e ∈ bmStep ids ms scores acc b, Q e := by
  rcases hex with ⟨e₀, he₀, hQ₀⟩
  unfold bmStep
  by_cases h : b.index < ids.length
  · rw [dif_pos h]
    simp only
    by_cases hany : acc.any (fun x => x.id == ids.get ⟨b.index, h⟩)
    · rw [if_pos hany]
      refine ⟨_, List.mem_map_of_mem _ he₀, ?_⟩
      by_cases hid : e₀.id = ids.get ⟨b.index, h⟩
      · rw [if_pos hid]; exact hQ e₀ _ hQ₀
      · rw [if_neg hid]; exact hQ₀
    · rw [if_neg hany]
      exact ⟨e₀, List.mem_append_left _ he₀, hQ₀⟩
  · rw [dif_neg h]
    exact ⟨e₀, he₀, hQ₀⟩

theorem bmStep_pres_of_ne (d : String) (Q : Entry → Prop)
    (hid : ∀ e, Q e → e.id = d)
    (ids : List String) (ms : List (List (String × String))) (scores : List ℚ)
    (acc : List Entry) (b : BmResult) (hne : mappedId ids b ≠ some d)
    (hex : ∃ e ∈ acc, Q e) : ∃ e ∈ bmStep ids ms scores acc b, Q e := by
  rcases hex with ⟨e₀, he₀, hQ₀⟩
  unfold bmStep
  by_cases h : b.index < ids.length
  · rw [dif_pos h]
    simp only
    have hd : ids.get ⟨b.index, h⟩ ≠ d := by
      intro hcon
      exact hne (by unfold mappedId; rw [dif_pos h, hcon])
    by_cases hany : acc.any (fun x => x.id == ids.get ⟨b.index, h⟩)
    · rw [if_pos hany]
      refine ⟨_, List.mem_map_of_mem _ he₀, ?_⟩
      have : e₀.id ≠ ids.get ⟨b.index, h⟩ := by rw [hid e₀ hQ₀]; exact fun hcon => hd hcon.symm
      rw [if_neg this]
      exact hQ₀
    · rw [if_neg hany]
      exact ⟨e₀, List.mem_append_left _ he₀, hQ₀⟩
  · rw [dif_neg h]
    exact ⟨e₀, he₀, hQ₀⟩

theorem filterMap_nodup_inj {α β : Type} (f : α → Option β) (l : List α)
    (h : (l.filterMap f).Nodup) (x y : α) (hx : x ∈ l) (hy : y ∈ l) (d : β)
    (hfx : f x = some d) (hfy : f y = some d) : x = y := by
  induction l with
  | nil => cases hx
  | cons z zs ih =>
    have htail : (zs.filterMap f).Nodup := by
      cases hz : f z with
      | none => rw [List.filterMap_cons, hz] at h; exact h
      | some b => rw [List.filterMap_cons, hz] at h; exact (List.nodup_cons.mp h).2
    rcases List.mem_cons.mp hx with hx1 | hx1 <;> rcases List.mem_cons.mp hy with hy1 | hy1
    · rw [hx1, hy1]
    · exfalso
      subst hx1
      rw [List.filterMap_cons, hfx] at h
      exact (List.nodup_cons.mp h).1 (List.mem_filterMap.mpr ⟨y, hy1, hfy⟩)
    · exfalso
      subst hy1
      rw [List.filterMap_cons, hfy] at h
      exact (List.nodup_cons.mp h).1 (List.mem_filterMap.mpr ⟨x, hx1, hfx⟩)
    · exact ih htail hx1 hy1

theorem bm_only_mem (vs : List VecResult) (bs : List BmResult) (ids : List String)
    (ms : List (List (String × String))) (d : String)
    (hd : d ∈ mappedIds ids bs) (hnotsem : d ∉ vs.map (fun r => r.id)) :
    ∃ e ∈ combinedResults vs bs ids ms, e.id = d ∧ e.semantic_score = 0 := by
  rcases List.mem_filterMap.mp hd with ⟨b, hb, hmap⟩
  unfold combinedResults bmPhase
  apply foldl_estab_mem (bmStep ids ms (bs.map (fun x => x.bm25_score)))
    (fun acc => ∃ e ∈ acc, e.id = d ∧ e.semantic_score = 0)
    (fun acc => ∀ e ∈ acc, e.id = d → e.semantic_score = 0) b bs hb
  · intro x _ acc hR e he hed
    rcases mem_bmStep _ _ _ _ _ _ he with h | ⟨e₀, he₀, heq⟩ | ⟨hlt, heq⟩
    · exact hR e h hed
    · have : e.semantic_score = e₀.semantic_score := by rw [heq]
      rw [this]
      apply hR e₀ he₀
      have : e.id = e₀.id := by rw [heq]
      rw [← this, hed]
    · rw [heq]
  · intro x _ acc hQ
    apply bmStep_pres_bmfree _ ?_ _ _ _ _ _ hQ
    intro e n hQe
    exact ⟨hQe.1, hQe.2⟩
  · intro acc hR
    have hdd : b.index < ids.length := by
      by_contra hcon
      unfold mappedId at hmap
      rw [dif_neg hcon] at hmap
      cases hmap
    have hget : ids.get ⟨b.index, hdd⟩ = d := by
      unfold mappedId at hmap
      rw [dif_pos hdd] at hmap
      exact Option.some_injective _ hmap
    unfold bmStep
    rw [dif_pos hdd]
    simp only
    by_cases hany : acc.any (fun x => x.id == ids.get ⟨b.index, hdd⟩)
    · rw [if_pos hany]
      rcases List.any_eq_true.mp hany with ⟨e₀, he₀, heq⟩
      rw [beq_iff_eq] at heq
      refine ⟨_, List.mem_map_of_mem _ he₀, ?_⟩
      rw [if_pos heq]
      exact ⟨hget ▸ heq ▸ rfl, hR e₀ he₀ (heq.trans hget)⟩
    · rw [if_neg hany]
      exact ⟨_, List.mem_append_right _ (List.mem_singleton_self _), hget, rfl⟩
  · intro e he hed
    exact absurd (hed ▸ (semPhase_shape vs e he).2.1) hnotsem

theorem bm_value_mem (vs : List VecResult) (bs : List BmResult) (ids : List String)
    (ms : List (List (String × String))) (b : BmResult) (hb : b ∈ bs) (d : String)
    (hmap : mappedId ids b = some d) (hnodup : (mappedIds ids bs).Nodup) :
    ∃ e ∈ combinedResults vs bs ids ms, e.id = d ∧
      e.bm25_score = mmNorm (bs.map (fun x => x.bm25_score)) b.bm25_score := by
  have hdd : b.index < ids.length := by
    by_contra hcon
    unfold mappedId at hmap
    rw [dif_neg hcon] at hmap
    cases hmap
  have hget : ids.get ⟨b.index, hdd⟩ = d := by
    unfold mappedId at hmap
    rw [dif_pos hdd] at hmap
    exact Option.some_injective _ hmap
  have hestab : ∀ acc : List Entry,
      ∃ e ∈ bmStep ids ms (bs.map (fun x => x.bm25_score)) acc b, e.id = d ∧
        e.bm25_score = mmNorm (bs.map (fun x => x.bm25_score)) b.bm25_score := by
    intro acc
    unfold bmStep
    rw [dif_pos hdd]
    simp only
    by_cases hany : acc.any (fun x => x.id == ids.get ⟨b.index, hdd⟩)
    · rw [if_pos hany]
      rcases List.any_eq_true.mp hany with ⟨e₀, he₀, heq⟩
      rw [beq_iff_eq] at heq
      refine ⟨_, List.mem_map_of_mem _ he₀, ?_⟩
      rw [if_pos heq]
      exact ⟨hget ▸ heq ▸ rfl, rfl⟩
    · rw [if_neg hany]
      exact ⟨_, List.mem_append_right _ (List.mem_singleton_self _), hget, rfl⟩
  unfold combinedResults bmPhase
  apply foldl_estab_mem (bmStep ids ms (bs.map (fun x => x.bm25_score)))
    (fun acc => ∃ e ∈ acc, e.id = d ∧
      e.bm25_score = mmNorm (bs.map (fun x => x.bm25_score)) b.bm25_score)
    (fun _ => True) b bs hb
  · intro _ _ _ _; trivial
  · intro x hx acc hQ
    by_cases hxd : mappedId ids x = some d
    · have hxb : x = b := filterMap_nodup_inj (mappedId ids) bs hnodup x b hx hb d hxd hmap
      subst hxb
      exact hestab acc
    · exact bmStep_pres_of_ne d _ (fun e hQe => hQe.1) _ _ _ _ _ hxd hQ
  · intro acc _
    exact hestab acc
  · trivial

theorem semPhase_eq_map (vs : List VecResult)
    (hnodup : (vs.map (fun r => r.id)).Nodup) :
    semPhase vs = vs.map (semEntry vs) := by
  unfold semPhase
  have h : ∀ (l : List VecResult) (acc : List Entry),
      (∀ x ∈ l, ∀ e ∈ acc, e.id ≠ x.id) → (l.map (fun r => r.id)).Nodup →
      l.foldl (fun acc r => dictSet acc (semEntry vs r)) acc =
        acc ++ l.map (semEntry vs) := by
    intro l
    induction l with
    | nil => intro acc _ _; simp
    | cons r rs ih =>
      intro acc h1 h2
      have hfresh : ¬ acc.any (fun x => x.id == (semEntry vs r).id) := by
        intro hcon
        rcases List.any_eq_true.mp hcon with ⟨e, he, heq⟩
        rw [beq_iff_eq] at heq
        exact h1 r (List.mem_cons_self r rs) e he heq
      show rs.foldl _ (dictSet acc (semEntry vs r)) = acc ++ (semEntry vs r :: rs.map (semEntry vs))
      have hset : dictSet acc (semEntry vs r) = acc ++ [semEntry vs r] := by
        unfold dictSet
        rw [if_neg hfresh]
      rw [hset, ih (acc ++ [semEntry vs r]) ?_ ?_]
      · simp
      · intro x hx e he
        rcases List.mem_append.mp he with h | h
        · exact h1 x (List.mem_cons_of_mem _ hx) e h
        · rw [List.mem_singleton.mp h]
          show r.id ≠ x.id
          rw [List.map_cons] at h2
          intro hcon
          exact (List.nodup_cons.mp h2).1 (hcon ▸ List.mem_map_of_mem _ hx)
      · rw [List.map_cons] at h2
        exact (List.nodup_cons.mp h2).2
  have := h vs [] (by intro x _ e he; cases he) hnodup
  simpa using this

theorem sem_value_mem (vs : List VecResult) (bs : List BmResult) (ids : List String)
    (ms : List (List (String × String))) (r : VecResult) (hr : r ∈ vs)
    (hnodup : (vs.map (fun x => x.id)).Nodup) :
    ∃ e ∈ combinedResults vs bs ids ms, e.id = r.id ∧
      e.semantic_score = mmNorm (vs.map (fun x => x.score)) r.score := by
  unfold combinedResults bmPhase
  apply foldl_pres_mem (bmStep ids ms (bs.map (fun x => x.bm25_score)))
    (fun acc => ∃ e ∈ acc, e.id = r.id ∧
      e.semantic_score = mmNorm (vs.map (fun x => x.score)) r.score)
  · intro x _ acc hQ
    apply bmStep_pres_bmfree _ ?_ _ _ _ _ _ hQ
    intro e n hQe
    exact ⟨hQe.1, hQe.2⟩
  · rw [semPhase_eq_map vs hnodup]
    exact ⟨semEntry vs r, List.mem_map_of_mem _ hr, rfl, rfl⟩

theorem sem_bm_zero_mem (vs : List VecResult) (bs : List BmResult) (ids : List String)
    (ms : List (List (String × String))) (r : VecResult) (hr : r ∈ vs)
    (hno : r.id ∉ mappedIds ids bs) :
    ∃ e ∈ combinedResults vs bs ids ms, e.id = r.id ∧ e.bm25_score = 0 := by
  have hinit : ∃ e ∈ semPhase vs, e.id = r.id ∧ e.bm25_score = 0 := by
    unfold semPhase
    apply foldl_estab_mem (fun acc x => dictSet acc (semEntry vs x))
      (fun acc => ∃ e ∈ acc, e.id = r.id ∧ e.bm25_score = 0) (fun _ => True) r vs hr
    · intro _ _ _ _; trivial
    · intro x _ acc hQ
      rcases hQ with ⟨e₀, he₀, hQ₀⟩
      unfold dictSet
      by_cases hany : acc.any (fun y => y.id == (semEntry vs x).id)
      · rw [if_pos hany]
        refine ⟨_, List.mem_map_of_mem _ he₀, ?_⟩
        by_cases hid : e₀.id = (semEntry vs x).id
        · rw [if_pos hid]
          exact ⟨(hid ▸ hQ₀.1 : (semEntry vs x).id = r.id), rfl⟩
        · rw [if_neg hid]; exact hQ₀
      · rw [if_neg hany]
        exact ⟨e₀, List.mem_append_left _ he₀, hQ₀⟩
    · intro acc _
      unfold dictSet
      by_cases hany : acc.any (fun y => y.id == (semEntry vs r).id)
      · rw [if_pos hany]
        rcases List.any_eq_true.mp hany with ⟨e₀, he₀, heq⟩
        rw [beq_iff_eq] at heq
        refine ⟨_, List.mem_map_of_mem _ he₀, ?_⟩
        rw [if_pos heq]
        exact ⟨rfl, rfl⟩
      · rw [if_neg hany]
        exact ⟨_, List.mem_append_right _ (List.mem_singleton_self _), rfl, rfl⟩
    · trivial
  unfold combinedResults bmPhase
  have h : ∀ (l : List BmResult), (∀ x ∈ l, x ∈ bs) →
      ∀ acc, (∃ e ∈ acc, e.id = r.id ∧ e.bm25_score = 0) →
      ∃ e ∈ l.foldl (bmStep ids ms (bs.map (fun x => x.bm25_score))) acc, e.id = r.id ∧ e.bm25_score = 0 := by
    intro l
    induction l with
    | nil => intro _ acc h; exact h
    | cons x xs ih =>
      intro hsub acc hQ
      apply ih (fun y hy => hsub y (List.mem_cons_of_mem _ hy))
      apply bmStep_pres_of_ne r.id _ (fun e hQe => hQe.1) _ _ _ _ _ ?_ hQ
      intro hcon
      exact hno (List.mem_filterMap.mpr ⟨x, hsub x (List.mem_cons_self x xs), hcon⟩)
  exact h bs (fun x hx => hx) (semPhase vs) hinit

theorem hybridRanked_pairwise (vs : List VecResult) (bs : List BmResult)
    (ids : List String) (ms : List (List (String × String))) (w : ℚ) :
    (hybridRanked vs bs ids ms w).Pairwise hybridLE :=
  List.sorted_insertionSort hybridLE _

theorem mem_hybridRanked (vs : List VecResult) (bs : List BmResult)
    (ids : List String) (ms : List (List (String × String))) (w : ℚ)
    (e : FusedResult) :
    e ∈ hybridRanked vs bs ids ms w ↔
      e ∈ (combinedResults vs bs ids ms).map (finalScore w) :=
  (List.perm_insertionSort hybridLE _).mem_iff

theorem pairwise_prec (l : List FusedResult) (hp : l.Pairwise hybridLE)
    (e1 e2 : FusedResult) (h1 : e1 ∈ l) (h2 : e2 ∈ l)
    (hlt : e2.hybrid_score < e1.hybrid_score) : Precedes l e1.id e2.id := by
  rcases List.mem_iff_get.mp h1 with ⟨i, hi⟩
  rcases List.mem_iff_get.mp h2 with ⟨j, hj⟩
  rw [List.pairwise_iff_get] at hp
  rcases lt_trichotomy i j with h | h | h
  · exact ⟨i, j, h, by rw [hi], by rw [hj]⟩
  · exfalso
    have he : e1 = e2 := by rw [← hi, h, hj]
    rw [he] at hlt
    exact lt_irrefl _ hlt
  · exfalso
    have hle := hp j i h
    unfold hybridLE at hle
    rw [hi, hj] at hle
    linarith

theorem mappedId_valid (ids : List String) (b : BmResult)
    (h : b.index < ids.length) :
    mappedId ids b = some (ids.getD b.index "") := by
  unfold mappedId
  rw [dif_pos h, List.getD_eq_getElem _ _ h, List.get_eq_getElem]

theorem mappedIds_cons_valid (ids : List String) (b : BmResult)
    (rest : List BmResult) (h : b.index < ids.length) :
    mappedIds ids (b :: rest) = ids.getD b.index "" :: mappedIds ids rest := by
  unfold mappedIds
  rw [List.filterMap_cons, mappedId_valid ids b h]

theorem mappedIds_valid_eq (ids : List String) (bs : List BmResult)
    (hvalid : ∀ b ∈ bs, b.index < ids.length) :
    mappedIds ids bs = bs.map (fun b => ids.getD b.index "") := by
  induction bs with
  | nil => rfl
  | cons b rest ih =>
    rw [mappedIds_cons_valid ids b rest (hvalid b (List.mem_cons_self b rest)),
      List.map_cons, ih (fun x hx => hvalid x (List.mem_cons_of_mem _ hx))]

theorem bmFold_fresh_eq (ids : List String) (ms : List (List (String × String)))
    (scores : List ℚ) :
    ∀ (l : List BmResult) (acc : List Entry),
    (∀ b ∈ l, b.index < ids.length) →
    (∀ b ∈ l, ∀ e ∈ acc, e.id ≠ ids.getD b.index "") →
    (mappedIds ids l).Nodup →
    l.foldl (bmStep ids ms scores) acc = acc ++ l.map (bmFresh ids ms scores) := by
  intro l
  induction l with
  | nil => intro acc _ _ _; simp
  | cons b rest ih =>
    intro acc hvalid hfresh hnodup
    have hb : b.index < ids.length := hvalid b (List.mem_cons_self b rest)
    have hid : ids.getD b.index "" = ids.get ⟨b.index, hb⟩ := by
      rw [List.getD_eq_getElem _ _ hb, List.get_eq_getElem]
    have hany : ¬ acc.any (fun x => x.id == ids.get ⟨b.index, hb⟩) := by
      intro hcon
      rcases List.any_eq_true.mp hcon with ⟨e, he, heq⟩
      rw [beq_iff_eq] at heq
      exact hfresh b (List.mem_cons_self b rest) e he (hid ▸ heq)
    have hset : bmStep ids ms scores acc b = acc ++ [bmFresh ids ms scores b] := by
      unfold bmStep
      rw [dif_pos hb]
      simp only
      rw [if_neg hany]
      unfold bmFresh
      rw [hid]
    have hnodup' := hnodup
    rw [mappedIds_cons_valid ids b rest hb] at hnodup'
    show rest.foldl _ (bmStep ids ms scores acc b) = acc ++ (bmFresh ids ms scores b :: rest.map (bmFresh ids ms scores))
    rw [hset, ih (acc ++ [bmFresh ids ms scores b]) ?_ ?_ ?_]
    · simp
    · exact fun x hx => hvalid x (List.mem_cons_of_mem _ hx)
    · intro x hx e he
      rcases List.mem_append.mp he with h | h
      · exact hfresh x (List.mem_cons_of_mem _ hx) e h
      · rw [List.mem_singleton.mp h]
        show ids.getD b.index "" ≠ ids.getD x.index ""
        intro hcon
        apply (List.nodup_cons.mp hnodup').1
        rw [hcon]
        rw [mappedIds_valid_eq ids rest (fun y hy => hvalid y (List.mem_cons_of_mem _ hy))]
        exact List.mem_map_of_mem _ hx
    · exact (List.nodup_cons.mp hnodup').2

theorem combined_lexonly (bs : List BmResult) (ids : List String)
    (ms : List (List (String × String)))
    (hvalid : ∀ b ∈ bs, b.index < ids.length)
    (hnodup : (mappedIds ids bs).Nodup) :
    combinedResults [] bs ids ms =
      bs.map (bmFresh ids ms (bs.map (fun x => x.bm25_score))) := by
  unfold combinedResults bmPhase
  have h := bmFold_fresh_eq ids ms (bs.map (fun x => x.bm25_score)) bs
    (semPhase []) hvalid (by intro b hb e he; cases he) hnodup
  simpa using h

theorem foldl_estab_guarded {α β : Type} [DecidableEq β] (f : α → β → α)
    (Q R : α → Prop) (b : β) :
    ∀ (l : List β), b ∈ l →
    (∀ x ∈ l, x ≠ b → ∀ a, R a → R (f a x)) →
    (∀ x ∈ l, ∀ a, Q a → Q (f a x)) →
    (∀ a, R a → Q (f a b)) →
    ∀ a, R a → Q (l.foldl f a) := by
  intro l
  induction l with
  | nil => intro hb; cases hb
  | cons y ys ih =>
    intro hb hR hQ hstep a hRa
    by_cases hyb : y = b
    · subst hyb
      exact foldl_pres_mem f Q ys (fun x hx => hQ x (List.mem_cons_of_mem _ hx))
        (f a y) (hstep a hRa)
    · have hbys : b ∈ ys := by
        rcases List.mem_cons.mp hb with h | h
        · exact absurd h.symm hyb
        · exact h
      exact ih hbys (fun x hx hxb => hR x (List.mem_cons_of_mem _ hx) hxb)
        (fun x hx => hQ x (List.mem_cons_of_mem _ hx)) hstep (f a y)
        (hR y (List.mem_cons_self y ys) hyb a hRa)

theorem bm_only_meta_mem (vs : List VecResult) (bs : List BmResult)
    (ids : List String) (ms : List (List (String × String))) (b : BmResult)
    (hb : b ∈ bs) (d : String) (hmap : mappedId ids b = some d)
    (hnodup : (mappedIds ids bs).Nodup) (hnotsem : d ∉ vs.map (fun r => r.id)) :
    ∃ e ∈ combinedResults vs bs ids ms, e.id = d ∧ e.semantic_score = 0 ∧
      e.metadata = bmEntryMeta ms b.index ∧
      e.bm25_score = mmNorm (bs.map (fun x => x.bm25_score)) b.bm25_score := by
  have hdd : b.index < ids.length := by
    by_contra hcon
    unfold mappedId at hmap
    rw [dif_neg hcon] at hmap
    cases hmap
  have hget : ids.get ⟨b.index, hdd⟩ = d := by
    unfold mappedId at hmap
    rw [dif_pos hdd] at hmap
    exact Option.some_injective _ hmap
  unfold combinedResults bmPhase
  apply foldl_estab_guarded (bmStep ids ms (bs.map (fun x => x.bm25_score)))
    (fun acc => ∃ e ∈ acc, e.id = d ∧ e.semantic_score = 0 ∧
      e.metadata = bmEntryMeta ms b.index ∧
      e.bm25_score = mmNorm (bs.map (fun x => x.bm25_score)) b.bm25_score)
    (fun acc => ∀ e ∈ acc, e.id ≠ d) b bs hb
  · intro x hx hxb acc hR e he
    rcases mem_bmStep _ _ _ _ _ _ he with h | ⟨e₀, he₀, heq⟩ | ⟨hlt, heq⟩
    · exact hR e h
    · have : e.id = e₀.id := by rw [heq]
      rw [this]
      exact hR e₀ he₀
    · rw [heq]
      simp only
      intro hcon
      apply hxb
      exact filterMap_nodup_inj (mappedId ids) bs hnodup x b hx hb d
        (by unfold mappedId; rw [dif_pos hlt, hcon]) hmap
  · intro x hx acc hQ
    by_cases hxd : mappedId ids x = some d
    · have hxb : x = b := filterMap_nodup_inj (mappedId ids) bs hnodup x b hx hb d hxd hmap
      rw [hxb]
      rcases hQ with ⟨e₀, he₀, hid, hsem, hmeta, hbm⟩
      unfold bmStep
      rw [dif_pos hdd]
      simp only
      have hany : acc.any (fun y => y.id == ids.get ⟨b.index, hdd⟩) := by
        apply List.any_eq_true.mpr
        exact ⟨e₀, he₀, by rw [beq_iff_eq, hid, hget]⟩
      rw [if_pos hany]
      refine ⟨_, List.mem_map_of_mem _ he₀, ?_⟩
      rw [if_pos (by rw [hid, hget] : e₀.id = ids.get ⟨b.index, hdd⟩)]
      exact ⟨hid, hsem, hmeta, rfl⟩
    · exact bmStep_pres_of_ne d _ (fun e hQe => hQe.1) _ _ _ _ _ hxd hQ
  · intro acc hR
    unfold bmStep
    rw [dif_pos hdd]
    simp only
    have hany : ¬ acc.any (fun y => y.id == ids.get ⟨b.index, hdd⟩) := by
      intro hcon
      rcases List.any_eq_true.mp hcon with ⟨e, he, heq⟩
      rw [beq_iff_eq] at heq
      exact hR e he (heq.trans hget)
    rw [if_neg hany]
    exact ⟨_, List.mem_append_right _ (List.mem_singleton_self _), hget, rfl, rfl, rfl⟩
  · intro e he
    intro hcon
    exact hnotsem (hcon ▸ (semPhase_shape vs e he).2.1)

end FinalCode

/-- C1 (amended for final_code): for every fusion weight α ∈ [0,1] and
every pair of channel result lists, every result of final_code's fusion
step has hybrid score α·semantic + (1-α)·lexical lying in [0,1], the
two components being min-max normalised into [0,1]. -/
theorem C1_fused_score_in_unit_interval
    (vs : List FinalCode.VecResult) (bs : List FinalCode.BmResult)
    (ids : List String) (ms : List (List (String × String))) (w : ℚ)
    (h0 : 0 ≤ w) (h1 : w ≤ 1) :
    ∀ e ∈ FinalCode.hybridRanked vs bs ids ms w,
      0 ≤ e.hybrid_score ∧ e.hybrid_score ≤ 1 := by
  intro e he
  rw [FinalCode.mem_hybridRanked] at he
  rcases List.mem_map.mp he with ⟨e₀, he₀, heq⟩
  have hb := FinalCode.combined_bounds vs bs ids ms e₀ he₀
  subst heq
  constructor
  · show 0 ≤ w * e₀.semantic_score + (1 - w) * e₀.bm25_score
    have hs := mul_nonneg h0 hb.1.1
    have hbm := mul_nonneg (by linarith : (0:ℚ) ≤ 1 - w) hb.2.1
    linarith
  · show w * e₀.semantic_score + (1 - w) * e₀.bm25_score ≤ 1
    nlinarith [hb.1.1, hb.1.2, hb.2.1, hb.2.2]

/-- C1 witness: the amended bound evaluated at a concrete input. -/
theorem C1_fused_score_witness :
    (0:ℚ) ≤ 3/5 ∧ (3/5:ℚ) ≤ 1 ∧
    ∀ e ∈ FinalCode.hybridRanked
      [⟨"s1", "d1", 1, []⟩, ⟨"s2", "d2", (1/2), []⟩] [⟨0, 4, "lex"⟩]
      ["s2"] [[]] (3/5),
      0 ≤ e.hybrid_score ∧ e.hybrid_score ≤ 1 :=
  ⟨by norm_num, by norm_num,
    C1_fused_score_in_unit_interval _ _ _ _ _ (by norm_num) (by norm_num)⟩

/-- C1 counterexample: in the arxiv-search-engine implementation the
semantic component of the fusion is 1 - distance with no clamping and no
min-max normalisation, so a semantic candidate at cosine distance 2
yields a fused score of -1, outside [0,1], already with weights
(α, 1-α) = (1, 0). -/
theorem C1_counterexample :
    (ArxivSE.hybrid_search
        (ArxivSE.semantic_search (fun _ => [⟨"a", "doc", [], 2⟩]) (some [1]))
        [] 1 0 10).map (fun e => e.hybrid_score) = [-1] ∧
      ¬ ((0:ℚ) ≤ -1) := by
  constructor
  · norm_num [ArxivSE.hybrid_search, ArxivSE.semantic_search, ArxivSE.get_embedding,
      ArxivSE.addSemantic, ArxivSE.addLexical, ArxivSE.dictSet, ArxivSE.scoreCombined,
      List.insertionSort, List.orderedInsert]
  · norm_num

/-- C2: the fused candidate set is the union of the two channels: a
document resolved only by the BM25 channel appears in the fused list
with semantic component 0, and a document returned only by the semantic
channel appears with BM25 component 0. -/
theorem C2_union_candidates (vs : List FinalCode.VecResult)
    (bs : List FinalCode.BmResult) (ids : List String)
    (ms : List (List (String × String))) (w : ℚ) :
    (∀ d, d ∈ FinalCode.mappedIds ids bs → d ∉ vs.map (fun r => r.id) →
      ∃ e ∈ FinalCode.hybridRanked vs bs ids ms w,
        e.id = d ∧ e.semantic_score = 0) ∧
    (∀ r ∈ vs, r.id ∉ FinalCode.mappedIds ids bs →
      ∃ e ∈ FinalCode.hybridRanked vs bs ids ms w,
        e.id = r.id ∧ e.bm25_score = 0) := by
  constructor
  · intro d hd hnot
    rcases FinalCode.bm_only_mem vs bs ids ms d hd hnot with ⟨e₀, he₀, hid, hsem⟩
    refine ⟨FinalCode.finalScore w e₀, ?_, hid, hsem⟩
    rw [FinalCode.mem_hybridRanked]
    exact List.mem_map_of_mem _ he₀
  · intro r hr hnot
    rcases FinalCode.sem_bm_zero_mem vs bs ids ms r hr hnot with ⟨e₀, he₀, hid, hbm⟩
    refine ⟨FinalCode.finalScore w e₀, ?_, hid, hbm⟩
    rw [FinalCode.mem_hybridRanked]
    exact List.mem_map_of_mem _ he₀

/-- C2 witness: both union directions evaluated at a concrete input
with one semantic-only and one lexical-only document. -/
theorem C2_union_witness :
    (∃ e ∈ FinalCode.hybridRanked [⟨"s1", "sdoc", 1, []⟩] [⟨0, 2, "ldoc"⟩]
        ["l1"] [[]] (1/2), e.id = "l1" ∧ e.semantic_score = 0) ∧
    (∃ e ∈ FinalCode.hybridRanked [⟨"s1", "sdoc", 1, []⟩] [⟨0, 2, "ldoc"⟩]
        ["l1"] [[]] (1/2), e.id = "s1" ∧ e.bm25_score = 0) :=
  ⟨(C2_union_candidates _ _ _ _ _).1 "l1" (by decide) (by decide),
   (C2_union_candidates _ _ _ _ _).2 ⟨"s1", "sdoc", 1, []⟩ (by decide) (by decide)⟩

/-- C3 counterexample: a channel that returns exactly one candidate
normalises it to 0, not 1: the code sets the divisor to 1 when max and
min coincide, so the numerator raw - min = 0 makes every such
normalised score 0. -/
theorem C3_counterexample :
    (FinalCode.hybridRanked [⟨"a", "doc", 5, []⟩] [] [] [] (1/2)).map
      (fun e => e.semantic_score) = [0] ∧ (0:ℚ) ≠ 1 := by
  constructor
  · norm_num [FinalCode.hybridRanked, FinalCode.combinedResults, FinalCode.bmPhase,
      FinalCode.semPhase, FinalCode.dictSet, FinalCode.semEntry, FinalCode.mmNorm,
      FinalCode.mmRange, FinalCode.qMax, FinalCode.qMin, FinalCode.finalScore,
      List.insertionSort, List.orderedInsert]
  · norm_num

/-- C3 (amended): the edge case is per channel: whenever the semantic
channel's raw scores are all equal (in particular a single semantic
candidate), every result's semantic normalised score is 0.0, whatever
the BM25 channel holds; and whenever the BM25 channel's raw scores are
all equal (in particular a single BM25 candidate), every result's BM25
normalised score is 0.0, whatever the semantic channel holds. In both
cases the divisor is set to 1, so there is never a division by zero,
and the normalised score is 0.0, never the claimed 1.0. -/
theorem C3_equal_scores_normalize_to_zero (vs : List FinalCode.VecResult)
    (bs : List FinalCode.BmResult) (ids : List String)
    (ms : List (List (String × String))) (w c cb : ℚ) :
    ((∀ r ∈ vs, r.score = c) →
      ∀ e ∈ FinalCode.hybridRanked vs bs ids ms w, e.semantic_score = 0) ∧
    ((∀ b ∈ bs, b.bm25_score = cb) →
      ∀ e ∈ FinalCode.hybridRanked vs bs ids ms w, e.bm25_score = 0) := by
  constructor
  · intro hvs e he
    rw [FinalCode.mem_hybridRanked] at he
    rcases List.mem_map.mp he with ⟨e₀, he₀, heq⟩
    subst heq
    have hcomb : ∀ e ∈ FinalCode.combinedResults vs bs ids ms,
        e.semantic_score = 0 := by
      apply FinalCode.bmPhase_inv
      · intro b hb e hP
        exact hP
      · intro b hb h
        rfl
      · apply FinalCode.semPhase_inv
        intro r hr
        exact FinalCode.mmNorm_const _ c
          (by intro x hx; rcases List.mem_map.mp hx with ⟨y, hy, hxy⟩; rw [← hxy]; exact hvs y hy)
          _ (List.mem_map_of_mem _ hr)
    exact hcomb e₀ he₀
  · intro hbs e he
    rw [FinalCode.mem_hybridRanked] at he
    rcases List.mem_map.mp he with ⟨e₀, he₀, heq⟩
    subst heq
    have hbm0 : ∀ b ∈ bs, FinalCode.mmNorm (bs.map (fun x => x.bm25_score))
        b.bm25_score = 0 := by
      intro b hb
      exact FinalCode.mmNorm_const _ cb
        (by intro x hx; rcases List.mem_map.mp hx with ⟨y, hy, hxy⟩; rw [← hxy]; exact hbs y hy)
        _ (List.mem_map_of_mem _ hb)
    have hcomb : ∀ e ∈ FinalCode.combinedResults vs bs ids ms,
        e.bm25_score = 0 := by
      apply FinalCode.bmPhase_inv
      · intro b hb e _
        exact hbm0 b hb
      · intro b hb h
        exact hbm0 b hb
      · apply FinalCode.semPhase_inv
        intro r hr
        rfl
    exact hcomb e₀ he₀

/-- C4 (amended, final_code side): when the embedding provider fails,
final_code's VectorDatabase.search returns the empty list without
raising, and hybrid_search then returns exactly the BM25 candidates in
their lexical (descending BM25) order, each with semantic score 0. -/
theorem C4_failsoft_lexical_only (store : List ℚ → List FinalCode.VecResult)
    (bs : List FinalCode.BmResult) (ids : List String)
    (ms : List (List (String × String))) (w : ℚ) (top_k : Nat)
    (h1 : w ≤ 1)
    (hvalid : ∀ b ∈ bs, b.index < ids.length)
    (hnodup : (FinalCode.mappedIds ids bs).Nodup)
    (hsorted : bs.Pairwise (fun a b => b.bm25_score ≤ a.bm25_score)) :
    FinalCode.db_search none store = [] ∧
    (FinalCode.hybrid_search (FinalCode.db_search none store) bs ids ms w top_k).map
      (fun e => e.id) = (FinalCode.mappedIds ids bs).take top_k ∧
    ∀ e ∈ FinalCode.hybrid_search (FinalCode.db_search none store) bs ids ms w top_k,
      e.semantic_score = 0 := by
  have hdb : FinalCode.db_search none store = [] := rfl
  have hcomb := FinalCode.combined_lexonly bs ids ms hvalid hnodup
  have hpair : ((bs.map (FinalCode.bmFresh ids ms (bs.map (fun x => x.bm25_score)))).map
      (FinalCode.finalScore w)).Pairwise FinalCode.hybridLE := by
    apply List.pairwise_map.mpr
    apply List.pairwise_map.mpr
    apply List.Pairwise.imp_of_mem ?_ hsorted
    intro a b ha hb hab
    show (FinalCode.finalScore w (FinalCode.bmFresh ids ms _ b)).hybrid_score ≤
      (FinalCode.finalScore w (FinalCode.bmFresh ids ms _ a)).hybrid_score
    show w * 0 + (1 - w) * FinalCode.mmNorm (bs.map (fun x => x.bm25_score)) b.bm25_score ≤
      w * 0 + (1 - w) * FinalCode.mmNorm (bs.map (fun x => x.bm25_score)) a.bm25_score
    have hm := FinalCode.mmNorm_mono (bs.map (fun x => x.bm25_score))
      a.bm25_score b.bm25_score (List.mem_map_of_mem _ ha)
      (List.mem_map_of_mem _ hb) hab
    have := mul_le_mul_of_nonneg_left hm (by linarith : (0:ℚ) ≤ 1 - w)
    linarith
  have hranked : FinalCode.hybridRanked [] bs ids ms w =
      (bs.map (FinalCode.bmFresh ids ms (bs.map (fun x => x.bm25_score)))).map
        (FinalCode.finalScore w) := by
    unfold FinalCode.hybridRanked
    rw [hcomb]
    exact List.Sorted.insertionSort_eq hpair
  refine ⟨hdb, ?_, ?_⟩
  · show (FinalCode.hybrid_search [] bs ids ms w top_k).map (fun e => e.id) = _
    have hmapid : ((bs.map (FinalCode.bmFresh ids ms (bs.map (fun x => x.bm25_score)))).map
        (FinalCode.finalScore w)).map (fun e => e.id) =
        bs.map (fun b => ids.getD b.index "") := by
      rw [List.map_map, List.map_map]
      rfl
    unfold FinalCode.hybrid_search
    rw [hranked, List.map_take, hmapid, FinalCode.mappedIds_valid_eq ids bs hvalid]
  · intro e he
    have he' : e ∈ FinalCode.hybridRanked [] bs ids ms w :=
      List.mem_of_mem_take he
    rw [hranked] at he'
    rcases List.mem_map.mp he' with ⟨e₀, he₀, heq⟩
    rcases List.mem_map.mp he₀ with ⟨b, _, heq₀⟩
    rw [← heq, ← heq₀]
    rfl

/-- C4 witness: the amended behaviour evaluated at a concrete input
with two lexical candidates and a failing provider. -/
theorem C4_failsoft_witness :
    FinalCode.db_search none (fun _ => []) = [] ∧
    (FinalCode.hybrid_search (FinalCode.db_search none (fun _ => []))
        [⟨0, 5, "da"⟩, ⟨1, 2, "db"⟩] ["p", "q"] [[], []] (1/2) 10).map (fun e => e.id)
      = ["p", "q"] ∧
    ∀ e ∈ FinalCode.hybrid_search (FinalCode.db_search none (fun _ => []))
        [⟨0, 5, "da"⟩, ⟨1, 2, "db"⟩] ["p", "q"] [[], []] (1/2) 10,
      e.semantic_score = 0 := by
  have h := C4_failsoft_lexical_only (fun _ => []) [⟨0, 5, "da"⟩, ⟨1, 2, "db"⟩]
    ["p", "q"] [[], []] (1/2) 10 (by norm_num) (by decide) (by decide)
    (by norm_num [List.pairwise_cons])
  exact ⟨h.1, h.2.1.trans (by decide), h.2.2⟩

/-- C4 counterexample: in the arxiv-search-engine implementation a
failing embedding provider does not make the semantic channel return an
empty candidate list: get_embedding returns a 768-dimensional zero
vector and the channel proceeds to query the store with it, so with any
store that answers the zero-vector query the channel output is
non-empty. -/
theorem C4_counterexample :
    ArxivSE.get_embedding none = List.replicate 768 0 ∧
    ArxivSE.get_embedding none ≠ [] ∧
    ArxivSE.semantic_search (fun _ => [⟨"d1", "doc", [], 0⟩]) none ≠ [] := by
  refine ⟨rfl, by decide, by decide⟩

/-- C5: in all three query-expansion implementations, every provider
error, timeout (a raised exception), non-200 status, or malformed
response returns the original query unchanged and propagates no
error. -/
theorem C5_expansion_failsoft (query : List Char)
    (cleanup : List Char → List Char)
    (combine : List Char → List Char → List Char) :
    FinalCode.expand_query .error query = query ∧
    FinalCode.expand_query (.ok none) query = query ∧
    ArxIV.expand_query_with_gemma cleanup .error query = query ∧
    ArxIV.expand_query_with_gemma cleanup (.ok 200 none) query = query ∧
    (∀ status : Nat, status ≠ 200 → ∀ body,
      ArxIV.expand_query_with_gemma cleanup (.ok status body) query = query) ∧
    ArxivSE.expand_query combine none query = query := by
  refine ⟨rfl, rfl, rfl, rfl, ?_, rfl⟩
  intro status hs body
  show (if status = 200 then
      match body with
      | none => query
      | some r =>
        let expanded := cleanup r
        if query.length < expanded.length ∧ expanded.length < 100 then expanded
        else query
    else query) = query
  rw [if_neg hs]

/-- C5 witness: the failure paths evaluated at a concrete query, with a
concrete non-200 status. -/
theorem C5_expansion_witness :
    ArxIV.expand_query_with_gemma id (.ok 500 none) "deep learning".toList
      = "deep learning".toList ∧
    FinalCode.expand_query .error "deep learning".toList = "deep learning".toList :=
  ⟨(C5_expansion_failsoft "deep learning".toList id (fun a _ => a)).2.2.2.2.1
      500 (by decide) none,
   (C5_expansion_failsoft "deep learning".toList id (fun a _ => a)).1⟩

/-- C6 counterexample: final_code's expand_query returns a cleaned
expansion even when it is strictly shorter than the original query
("q" for "quantum computing"), so the strict-length acceptance policy
does not hold for every Expand implementation. -/
theorem C6_counterexample :
    FinalCode.expand_query (.ok (some ['q'])) "quantum computing".toList = ['q'] ∧
    (['q'] : List Char).length < "quantum computing".toList.length ∧
    (['q'] : List Char) ≠ "quantum computing".toList := by
  refine ⟨by decide, by decide, by decide⟩

/-- C6 (amended): the strict-length acceptance policy (return the
expansion only if strictly longer than the query and under 100
characters, else the original query) is implemented by the ArxIV
backend's expand_query_with_gemma; final_code's expand_query instead
accepts any non-empty cleaned expansion regardless of length and
returns the original query only when the cleaned expansion is empty. -/
theorem C6_acceptance_policy (query r : List Char)
    (cleanup : List Char → List Char) :
    (query.length < (cleanup r).length ∧ (cleanup r).length < 100 →
      ArxIV.expand_query_with_gemma cleanup (.ok 200 (some r)) query = cleanup r) ∧
    (¬ (query.length < (cleanup r).length ∧ (cleanup r).length < 100) →
      ArxIV.expand_query_with_gemma cleanup (.ok 200 (some r)) query = query) ∧
    (FinalCode.replaceNewlines (FinalCode.stripChars r) ≠ [] →
      FinalCode.expand_query (.ok (some r)) query =
        FinalCode.replaceNewlines (FinalCode.stripChars r)) ∧
    (FinalCode.replaceNewlines (FinalCode.stripChars r) = [] →
      FinalCode.expand_query (.ok (some r)) query = query) := by
  refine ⟨?_, ?_, ?_, ?_⟩
  · intro h
    show (if query.length < (cleanup r).length ∧ (cleanup r).length < 100 then cleanup r
      else query) = cleanup r
    rw [if_pos h]
  · intro h
    show (if query.length < (cleanup r).length ∧ (cleanup r).length < 100 then cleanup r
      else query) = query
    rw [if_neg h]
  · intro h
    show (if FinalCode.replaceNewlines (FinalCode.stripChars r) ≠ [] then
      FinalCode.replaceNewlines (FinalCode.stripChars r) else query) =
      FinalCode.replaceNewlines (FinalCode.stripChars r)
    rw [if_pos h]
  · intro h
    show (if FinalCode.replaceNewlines (FinalCode.stripChars r) ≠ [] then
      FinalCode.replaceNewlines (FinalCode.stripChars r) else query) = query
    rw [if_neg (not_not_intro h)]

/-- C6 witness: all four acceptance branches evaluated at concrete
queries and responses. -/
theorem C6_acceptance_witness :
    ArxIV.expand_query_with_gemma id (.ok 200 (some "artificial intelligence".toList))
      "ai".toList = "artificial intelligence".toList ∧
    ArxIV.expand_query_with_gemma id (.ok 200 (some ['q'])) "quantum computing".toList
      = "quantum computing".toList ∧
    FinalCode.expand_query (.ok (some ['q'])) "quantum computing".toList = ['q'] ∧
    FinalCode.expand_query (.ok (some "  ".toList)) "ai".toList = "ai".toList := by
  refine ⟨(C6_acceptance_policy "ai".toList "artificial intelligence".toList id).1
      (by decide),
    (C6_acceptance_policy "quantum computing".toList ['q'] id).2.1 (by decide),
    ((C6_acceptance_policy "quantum computing".toList ['q'] id).2.2.1
      (by decide)).trans (by decide),
    (C6_acceptance_policy "ai".toList "  ".toList id).2.2.2 (by decide)⟩

/-- C7: with fusion weight 1, any two semantic candidates with strictly
different raw scores appear in the fused ranking in semantic order; with
fusion weight 0, any two BM25 candidates with strictly different raw
scores appear in lexical order (ties aside). -/
theorem C7_extreme_weights (vs : List FinalCode.VecResult)
    (bs : List FinalCode.BmResult) (ids : List String)
    (ms : List (List (String × String))) :
    (∀ r1 ∈ vs, ∀ r2 ∈ vs, (vs.map (fun x => x.id)).Nodup →
      r2.score < r1.score →
      FinalCode.Precedes (FinalCode.hybridRanked vs bs ids ms 1) r1.id r2.id) ∧
    (∀ b1 ∈ bs, ∀ b2 ∈ bs, ∀ d1 d2,
      FinalCode.mappedId ids b1 = some d1 →
      FinalCode.mappedId ids b2 = some d2 →
      (FinalCode.mappedIds ids bs).Nodup →
      b2.bm25_score < b1.bm25_score →
      FinalCode.Precedes (FinalCode.hybridRanked vs bs ids ms 0) d1 d2) := by
  constructor
  · intro r1 h1 r2 h2 hnodup hlt
    rcases FinalCode.sem_value_mem vs bs ids ms r1 h1 hnodup with ⟨e1, he1, hid1, hsem1⟩
    rcases FinalCode.sem_value_mem vs bs ids ms r2 h2 hnodup with ⟨e2, he2, hid2, hsem2⟩
    have hm1 : FinalCode.finalScore 1 e1 ∈ FinalCode.hybridRanked vs bs ids ms 1 :=
      (FinalCode.mem_hybridRanked _ _ _ _ _ _).mpr (List.mem_map_of_mem _ he1)
    have hm2 : FinalCode.finalScore 1 e2 ∈ FinalCode.hybridRanked vs bs ids ms 1 :=
      (FinalCode.mem_hybridRanked _ _ _ _ _ _).mpr (List.mem_map_of_mem _ he2)
    have hhyb : (FinalCode.finalScore 1 e2).hybrid_score <
        (FinalCode.finalScore 1 e1).hybrid_score := by
      show 1 * e2.semantic_score + (1 - 1) * e2.bm25_score <
        1 * e1.semantic_score + (1 - 1) * e1.bm25_score
      rw [hsem1, hsem2]
      have := FinalCode.mmNorm_strict_mono (vs.map (fun x => x.score))
        r1.score r2.score (List.mem_map_of_mem _ h1) (List.mem_map_of_mem _ h2) hlt
      linarith
    have hp := FinalCode.pairwise_prec _ (FinalCode.hybridRanked_pairwise vs bs ids ms 1)
      _ _ hm1 hm2 hhyb
    rw [show (FinalCode.finalScore 1 e1).id = r1.id from hid1,
      show (FinalCode.finalScore 1 e2).id = r2.id from hid2] at hp
    exact hp
  · intro b1 h1 b2 h2 d1 d2 hmap1 hmap2 hnodup hlt
    rcases FinalCode.bm_value_mem vs bs ids ms b1 h1 d1 hmap1 hnodup with ⟨e1, he1, hid1, hbm1⟩
    rcases FinalCode.bm_value_mem vs bs ids ms b2 h2 d2 hmap2 hnodup with ⟨e2, he2, hid2, hbm2⟩
    have hm1 : FinalCode.finalScore 0 e1 ∈ FinalCode.hybridRanked vs bs ids ms 0 :=
      (FinalCode.mem_hybridRanked _ _ _ _ _ _).mpr (List.mem_map_of_mem _ he1)
    have hm2 : FinalCode.finalScore 0 e2 ∈ FinalCode.hybridRanked vs bs ids ms 0 :=
      (FinalCode.mem_hybridRanked _ _ _ _ _ _).mpr (List.mem_map_of_mem _ he2)
    have hhyb : (FinalCode.finalScore 0 e2).hybrid_score <
        (FinalCode.finalScore 0 e1).hybrid_score := by
      show 0 * e2.semantic_score + (1 - 0) * e2.bm25_score <
        0 * e1.semantic_score + (1 - 0) * e1.bm25_score
      rw [hbm1, hbm2]
      have := FinalCode.mmNorm_strict_mono (bs.map (fun x => x.bm25_score))
        b1.bm25_score b2.bm25_score (List.mem_map_of_mem _ h1)
        (List.mem_map_of_mem _ h2) hlt
      linarith
    have hp := FinalCode.pairwise_prec _ (FinalCode.hybridRanked_pairwise vs bs ids ms 0)
      _ _ hm1 hm2 hhyb
    rw [show (FinalCode.finalScore 0 e1).id = d1 from hid1,
      show (FinalCode.finalScore 0 e2).id = d2 from hid2] at hp
    exact hp

/-- C7 witness: both extreme-weight orderings evaluated at concrete
channel lists. -/
theorem C7_extreme_weights_witness :
    FinalCode.Precedes
      (FinalCode.hybridRanked [⟨"a", "d", 3, []⟩, ⟨"b", "e", 1, []⟩] [] [] [] 1)
      "a" "b" ∧
    FinalCode.Precedes
      (FinalCode.hybridRanked [] [⟨0, 5, "x"⟩, ⟨1, 2, "y"⟩] ["p", "q"] [[], []] 0)
      "p" "q" := by
  constructor
  · exact (C7_extreme_weights [⟨"a", "d", 3, []⟩, ⟨"b", "e", 1, []⟩] [] [] []).1
      ⟨"a", "d", 3, []⟩ (by decide) ⟨"b", "e", 1, []⟩ (by decide) (by decide)
      (by norm_num)
  · exact (C7_extreme_weights [] [⟨0, 5, "x"⟩, ⟨1, 2, "y"⟩] ["p", "q"] [[], []]).2
      ⟨0, 5, "x"⟩ (by decide) ⟨1, 2, "y"⟩ (by decide) "p" "q" (by decide) (by decide)
      (by decide) (by norm_num)

/-- C8 counterexample: ties are not broken by document id: for the same
tied candidate set the fused output keeps the insertion order, so the
two orders of presentation produce the two opposite tie orders — no
id-based tie-break (under which both runs would agree) exists. -/
theorem C8_counterexample :
    (FinalCode.hybridRanked [⟨"b", "db", 1, []⟩, ⟨"a", "da", 1, []⟩] [] [] []
      (1/2)).map (fun e => e.id) = ["b", "a"] ∧
    (FinalCode.hybridRanked [⟨"a", "da", 1, []⟩, ⟨"b", "db", 1, []⟩] [] [] []
      (1/2)).map (fun e => e.id) = ["a", "b"] ∧
    (FinalCode.hybridRanked [⟨"b", "db", 1, []⟩, ⟨"a", "da", 1, []⟩] [] [] []
      (1/2)).map (fun e => e.hybrid_score) = [0, 0] := by
  refine ⟨?_, ?_, ?_⟩ <;>
    norm_num [FinalCode.hybridRanked, FinalCode.combinedResults, FinalCode.bmPhase,
      FinalCode.semPhase, FinalCode.dictSet, FinalCode.semEntry, FinalCode.mmNorm,
      FinalCode.mmRange, FinalCode.qMax, FinalCode.qMin, FinalCode.finalScore,
      FinalCode.hybridLE, List.insertionSort, List.orderedInsert]

/-- C8 (amended): every fusion sort orders results descending by hybrid
score; ties are not broken by document id — the sort is stable, so tied
results keep the candidate-map insertion order (semantic-channel entries
in channel order, then lexical-only entries), which is still a
deterministic function of the input. -/
theorem C8_sort_descending_stable (vs : List FinalCode.VecResult)
    (bs : List FinalCode.BmResult) (ids : List String)
    (ms : List (List (String × String))) (w : ℚ) :
    ((FinalCode.hybridRanked vs bs ids ms w).Pairwise
      (fun a b => b.hybrid_score ≤ a.hybrid_score)) ∧
    (∀ c : List FinalCode.FusedResult,
      c.Pairwise (fun a b => b.hybrid_score ≤ a.hybrid_score) →
      c.Sublist ((FinalCode.combinedResults vs bs ids ms).map (FinalCode.finalScore w)) →
      c.Sublist (FinalCode.hybridRanked vs bs ids ms w)) := by
  constructor
  · exact FinalCode.hybridRanked_pairwise vs bs ids ms w
  · intro c hc hsub
    exact List.sublist_insertionSort hc hsub

/-- C8 witness: the descending order and the stability clause evaluated
at a concrete tied input (the full candidate list is its own sorted
sublist and survives the sort in insertion order). -/
theorem C8_sort_witness :
    ((FinalCode.hybridRanked [⟨"b", "db", 1, []⟩, ⟨"a", "da", 1, []⟩] [] [] []
      (1/2)).Pairwise (fun a b => b.hybrid_score ≤ a.hybrid_score)) ∧
    ((FinalCode.combinedResults [⟨"b", "db", 1, []⟩, ⟨"a", "da", 1, []⟩] [] [] []).map
        (FinalCode.finalScore (1/2))).Sublist
      (FinalCode.hybridRanked [⟨"b", "db", 1, []⟩, ⟨"a", "da", 1, []⟩] [] [] []
        (1/2)) := by
  refine ⟨(C8_sort_descending_stable _ _ _ _ _).1,
    (C8_sort_descending_stable _ _ _ _ _).2 _ ?_ (List.Sublist.refl _)⟩
  have hba : ¬ ("b" : String) = "a" := by decide
  norm_num [FinalCode.combinedResults, FinalCode.bmPhase, FinalCode.semPhase,
    FinalCode.dictSet, FinalCode.semEntry, FinalCode.mmNorm, FinalCode.mmRange,
    FinalCode.qMax, FinalCode.qMin, FinalCode.finalScore, List.pairwise_cons, hba]

/-- C9 counterexample: an out-of-range fusion weight (α = 2) is not
rejected: the fusion computation runs with it and returns a non-empty
ranked list whose top score is 2, outside [0,1] — so the out-of-range
weight reached the scoring step. -/
theorem C9_counterexample :
    (FinalCode.hybridRanked [⟨"a", "da", 1, []⟩, ⟨"b", "db", 0, []⟩] [] [] [] 2).map
      (fun e => e.hybrid_score) = [2, 0] ∧ ¬ ((2:ℚ) ≤ 1) := by
  constructor
  · norm_num [FinalCode.hybridRanked, FinalCode.combinedResults, FinalCode.bmPhase,
      FinalCode.semPhase, FinalCode.dictSet, FinalCode.semEntry, FinalCode.mmNorm,
      FinalCode.mmRange, FinalCode.qMax, FinalCode.qMin, FinalCode.finalScore,
      FinalCode.hybridLE, List.insertionSort, List.orderedInsert]
  · norm_num

/-- C9 (amended): hybrid_search performs no validation of the fusion
weight: every weight, in range or not, flows into the scoring formula of
every fused result unchanged. -/
theorem C9_no_weight_validation (vs : List FinalCode.VecResult)
    (bs : List FinalCode.BmResult) (ids : List String)
    (ms : List (List (String × String))) (w : ℚ) :
    ∀ e ∈ FinalCode.hybridRanked vs bs ids ms w,
      e.hybrid_score = w * e.semantic_score + (1 - w) * e.bm25_score := by
  intro e he
  rw [FinalCode.mem_hybridRanked] at he
  rcases List.mem_map.mp he with ⟨e₀, he₀, heq⟩
  subst heq
  rfl

/-- C9 witness: the unvalidated weight 2 applied at a concrete input,
on a concrete member of the output. -/
theorem C9_no_weight_validation_witness :
    ∃ e ∈ FinalCode.hybridRanked [⟨"a", "da", 1, []⟩, ⟨"b", "db", 0, []⟩] [] [] [] 2,
      e.hybrid_score = 2 * e.semantic_score + (1 - 2) * e.bm25_score := by
  have hmem : (⟨"a", "da", 1, [], 2, 1, 0⟩ : FinalCode.FusedResult) ∈
      FinalCode.hybridRanked [⟨"a", "da", 1, []⟩, ⟨"b", "db", 0, []⟩] [] [] [] 2 := by
    norm_num [FinalCode.hybridRanked, FinalCode.combinedResults, FinalCode.bmPhase,
      FinalCode.semPhase, FinalCode.dictSet, FinalCode.semEntry, FinalCode.mmNorm,
      FinalCode.mmRange, FinalCode.qMax, FinalCode.qMin, FinalCode.finalScore,
      FinalCode.hybridLE, List.insertionSort, List.orderedInsert]
  exact ⟨_, hmem, C9_no_weight_validation _ _ _ _ 2 _ hmem⟩

/-- C10: the filters argument of final_code's hybrid_search reaches only
the semantic channel's vector query: even when every semantic candidate
satisfies the where clause, a document entering through the BM25 channel
alone is returned without any filter check, so a filtered search can
return a document whose metadata does not satisfy the filter. -/
theorem C10_filters_bypass_lexical (vs : List FinalCode.VecResult)
    (bs : List FinalCode.BmResult) (ids : List String)
    (ms : List (List (String × String))) (w : ℚ) (top_k : Nat)
    (filters : List (String × String)) (b : FinalCode.BmResult) (hb : b ∈ bs)
    (d : String) (hmap : FinalCode.mappedId ids b = some d)
    (hnodup : (FinalCode.mappedIds ids bs).Nodup)
    (hnotsem : d ∉ vs.map (fun r => r.id))
    (hsem_pass : ∀ r ∈ vs, FinalCode.whereKeep filters r.metadata = true)
    (hfail : FinalCode.whereKeep filters (FinalCode.bmEntryMeta ms b.index) = false)
    (hfit : (FinalCode.combinedResults vs bs ids ms).length ≤ top_k) :
    ∃ e ∈ FinalCode.hybrid_search vs bs ids ms w top_k,
      e.id = d ∧ FinalCode.whereKeep filters e.metadata = false := by
  rcases FinalCode.bm_only_meta_mem vs bs ids ms b hb d hmap hnodup hnotsem with
    ⟨e₀, he₀, hid, _, hmeta, _⟩
  have hmem : FinalCode.finalScore w e₀ ∈ FinalCode.hybridRanked vs bs ids ms w :=
    (FinalCode.mem_hybridRanked _ _ _ _ _ _).mpr (List.mem_map_of_mem _ he₀)
  have hlen : (FinalCode.hybridRanked vs bs ids ms w).length ≤ top_k := by
    unfold FinalCode.hybridRanked
    rw [List.length_insertionSort, List.length_map]
    exact hfit
  have htake : FinalCode.hybrid_search vs bs ids ms w top_k =
      FinalCode.hybridRanked vs bs ids ms w := by
    unfold FinalCode.hybrid_search
    exact List.take_of_length_le hlen
  refine ⟨FinalCode.finalScore w e₀, htake ▸ hmem, hid, ?_⟩
  show FinalCode.whereKeep filters e₀.metadata = false
  rw [hmeta]
  exact hfail

/-- C10 witness: a concrete filtered search over one matching semantic
candidate and one non-matching lexical-only candidate returns the
non-matching document. -/
theorem C10_filters_bypass_witness :
    ∃ e ∈ FinalCode.hybrid_search
        [⟨"s1", "sdoc", 1, [("categories", "cs.CV papers")]⟩]
        [⟨0, 3, "ldoc"⟩] ["l1"] [[("categories", "math.CO")]] (1/2) 10,
      e.id = "l1" ∧
      FinalCode.whereKeep [("categories", "cs.CV")] e.metadata = false := by
  exact C10_filters_bypass_lexical
    [⟨"s1", "sdoc", 1, [("categories", "cs.CV papers")]⟩]
    [⟨0, 3, "ldoc"⟩] ["l1"] [[("categories", "math.CO")]] (1/2) 10
    [("categories", "cs.CV")] ⟨0, 3, "ldoc"⟩ (by decide) "l1" (by decide)
    (by decide) (by decide) (by decide) (by decide) (by decide)

/-- C3 witness: each per-channel branch evaluated at a concrete input
whose OTHER channel is non-degenerate: a single-candidate semantic
channel next to a BM25 channel with two distinct raw scores, and a
single-candidate BM25 channel next to a semantic channel with two
distinct raw scores. -/
theorem C3_equal_scores_witness :
    (∀ e ∈ FinalCode.hybridRanked [⟨"a", "d1", 5, []⟩]
        [⟨0, 3, "x"⟩, ⟨1, 1, "y"⟩] ["l1", "l2"] [[], []] (1/2),
      e.semantic_score = 0) ∧
    (∀ e ∈ FinalCode.hybridRanked [⟨"a", "d1", 4, []⟩, ⟨"b", "d2", 2, []⟩]
        [⟨0, 3, "x"⟩] ["l1"] [[]] (1/2),
      e.bm25_score = 0) :=
  ⟨(C3_equal_scores_normalize_to_zero _ _ _ _ _ 5 0).1 (by decide),
   (C3_equal_scores_normalize_to_zero _ _ _ _ _ 0 3).2 (by decide)⟩
